import Mathlib

/-
Verification of the collection-indexing core of climetlab
(climetlab/core/index.py and the hypercube check of
climetlab/readers/grib/index/__init__.py), as a shallow embedding.

Python values that occur as element metadata and as members of
selection / ordering arguments are modelled by `PyVal` (ints, strings,
and floats modelled as exact rationals; the concrete inputs exercised
below only use values on which CPython floats are exact).  Python
`None` is modelled as `Option.none` where it can occur.  Exceptions are
modelled with `Except String`.  Python list indexing (with negative
wrap-around) is `pyListGet`.

The `Index` class hierarchy is modelled by the inductive `Index`:
`ofList` stands for a concrete backend collection whose `_getitem`
retrieves from a Python list, `mask` for `MaskIndex` (backing index
plus position list), `multi` for `MultiIndex` (list of children).
-/

inductive PyVal : Type where
  | vint : Int → PyVal
  | vfloat : Rat → PyVal
  | vstr : String → PyVal
  | vobj : Nat → PyVal
deriving DecidableEq, Repr

/-- Python `==` on metadata-like values: numeric values compare across
int/float (CPython unifies numeric equality), strings compare to
strings, and numbers never equal strings. -/
def pyEq : PyVal → PyVal → Bool
  | .vint a, .vint b => a == b
  | .vint a, .vfloat q => (a : Rat) == q
  | .vfloat q, .vint a => q == (a : Rat)
  | .vfloat a, .vfloat b => a == b
  | .vstr a, .vstr b => a == b
  | .vobj a, .vobj b => a == b
  | _, _ => false

/-- Python `==` where either side may be `None`: `None` equals only
`None`. -/
def pyEqOpt : Option PyVal → Option PyVal → Bool
  | none, none => true
  | some a, some b => pyEq a b
  | _, _ => false

/-- Runtime type tags, the possible results of `type(x)` for the values
modelled here. -/
inductive PyType : Type where
  | tint
  | tfloat
  | tstr
  | tobj
deriving DecidableEq, Repr

def PyVal.typeOf : PyVal → PyType
  | .vint _ => .tint
  | .vfloat _ => .tfloat
  | .vstr _ => .tstr
  | .vobj _ => .tobj

/-- Rendering of a float by `str`.  Exact for integral values
(CPython prints `1.0`); non-integral values are rendered as
`num/den`, a placeholder that no concrete input below reaches. -/
def floatStr (q : Rat) : String :=
  if q.den == 1 then toString q.num ++ ".0"
  else toString q.num ++ "/" ++ toString q.den

/-- Python `str(v)`. -/
def pyStr : PyVal → String
  | .vint n => toString n
  | .vfloat q => floatStr q
  | .vstr s => s
  | .vobj i => "<object " ++ toString i ++ ">"

/-- Decimal string to rational, modelling CPython `float()` on plain
integer and `digits.digits` decimal literals (the only shapes the
concrete inputs below use); anything else raises `ValueError`. -/
def ratOfDecimal (s : String) : Except String Rat :=
  match s.toInt? with
  | some n => .ok (n : Rat)
  | none =>
    match s.splitOn "." with
    | [a, b] =>
      match a.toInt?, b.toNat? with
      | some ia, some nb =>
        let frac : Rat := (nb : Rat) / ((10 : Rat) ^ b.length)
        .ok (if ia < 0 ∨ a.startsWith "-" then (ia : Rat) - frac else (ia : Rat) + frac)
      | _, _ => .error "ValueError"
    | _ => .error "ValueError"

/-- Truncation of a rational toward zero, the behaviour of CPython
`int()` on a float. -/
def ratTrunc (q : Rat) : Int :=
  if q < 0 then -(Rat.floor (-q)) else Rat.floor q

/-- Python `int(v)`: ints pass through, floats truncate toward zero,
strings parse as integer literals or raise `ValueError`. -/
def pyToInt : PyVal → Except String Int
  | .vint n => .ok n
  | .vfloat q => .ok (ratTrunc q)
  | .vstr s =>
    match s.toInt? with
    | some n => .ok n
    | none => .error "ValueError"
  | .vobj _ => .error "TypeError"

/-- Python `float(v)`: ints and floats convert, strings parse as
decimal literals or raise `ValueError`; other objects raise
`TypeError`. -/
def pyToFloat : PyVal → Except String Rat
  | .vint n => .ok (n : Rat)
  | .vfloat q => .ok q
  | .vstr s => ratOfDecimal s
  | .vobj _ => .error "TypeError"

/-- Python `cast(y)` where `cast = type(x)` in `Selection.InList`;
constructing a plain object from an argument raises `TypeError`. -/
def pyCast : PyType → PyVal → Except String PyVal
  | .tint, v => (pyToInt v).map PyVal.vint
  | .tfloat, v => (pyToFloat v).map PyVal.vfloat
  | .tstr, v => .ok (.vstr (pyStr v))
  | .tobj, _ => .error "TypeError"

/-- Python list indexing `l[n]`: non-negative positions index from the
front, positions in `[-len, -1]` wrap around from the back, anything
else raises `IndexError` (modelled as `none`). -/
def pyListGet {E : Type} (l : List E) (n : Int) : Option E :=
  if 0 ≤ n then l.get? n.toNat
  else if -(l.length : Int) ≤ n then l.get? ((l.length : Int) + n).toNat
  else none

/-- Python `x in lst` where `lst` holds `PyVal`s and `x` may be `None`
(`None` equals no `PyVal`). -/
def pyMem (x : Option PyVal) (lst : List PyVal) : Bool :=
  match x with
  | none => false
  | some v => lst.any (pyEq v)

/-- Python `set(v)` as an insertion-ordered deduplicated list (the
deduplication uses Python `==`; the iteration order of small CPython
sets of the values used below follows insertion order). -/
def pySet (l : List PyVal) : List PyVal :=
  l.foldl (fun acc v => if acc.any (pyEq v) then acc else acc ++ [v]) []

/-- Model of the `Index` class hierarchy of `climetlab/core/index.py`:
`ofList` is a concrete backend whose `_getitem` reads a Python list,
`mask` is `MaskIndex`, `multi` is `MultiIndex`. -/
inductive Index (E : Type) : Type where
  | ofList : List E → Index E
  | mask : Index E → List Int → Index E
  | multi : List (Index E) → Index E

namespace Index

variable {E : Type}

mutual
/-- The `__len__` contract: backend length, `MaskIndex.__len__` is
`len(self.indices)`, `MultiIndex.__len__` is `sum(len(i) for i in
self.indexes)`. -/
def length : Index E → Nat
  | .ofList l => l.length
  | .mask _ idxs => idxs.length
  | .multi cs => Index.lengthMulti cs

def lengthMulti : List (Index E) → Nat
  | [] => 0
  | c :: cs => c.length + Index.lengthMulti cs
end

mutual
/-- Single-element retrieval `self[n]` for an integer `n`: the backend
reads its list, `MaskIndex._getitem` translates through
`self.indices[n]`, `MultiIndex._getitem` walks children subtracting
lengths (`while n >= len(self.indexes[k]): n -= ...; k += 1`).
Exhausting the children (or any failing list access) raises
`IndexError`, modelled as `none`. -/
def get : Index E → Int → Option E
  | .ofList l, n => pyListGet l n
  | .mask b idxs, n => (pyListGet idxs n).bind fun i => b.get i
  | .multi cs, n => Index.getMulti cs n

def getMulti : List (Index E) → Int → Option E
  | [], _ => none
  | c :: cs, n =>
    if (c.length : Int) ≤ n then Index.getMulti cs (n - (c.length : Int))
    else c.get n
end

mutual
/-- Well-formedness of a view chain: every mask position is a
non-negative in-range index of its backing collection (which is what
`sel`, `order_by` and slicing produce), recursively. -/
def wf : Index E → Bool
  | .ofList _ => true
  | .mask b idxs => b.wf && idxs.all (fun i => 0 ≤ i && i < (b.length : Int))
  | .multi cs => Index.wfAll cs

def wfAll : List (Index E) → Bool
  | [] => true
  | c :: cs => c.wf && Index.wfAll cs
end

mutual
/-- The element sequence denoted by an index: what iterating
`self[0], self[1], ...` yields on a well-formed index (failing
accesses are dropped; on a well-formed index none fail). -/
def elems : Index E → List E
  | .ofList l => l
  | .mask b idxs => idxs.filterMap (fun i => b.get i)
  | .multi cs => Index.elemsMulti cs

def elemsMulti : List (Index E) → List E
  | [] => []
  | c :: cs => c.elems ++ Index.elemsMulti cs
end

end Index

/-- The part of a compiled `Selection` that `Index.sel` consumes:
`is_empty` (true iff no keyword arguments were supplied) and
`match_element` as a predicate on elements. -/
structure SelSig (E : Type) : Type where
  isEmpty : Bool
  matchElt : E → Bool

/-- The part of a compiled `Order` that `Index.order_by` consumes:
`is_empty` and `compare_elements` as an integer-valued comparator. -/
structure OrdSig (E : Type) : Type where
  isEmpty : Bool
  cmp : E → E → Int

namespace Index

variable {E : Type}

/-- The position generator of `Index.sel`:
`(i for i, element in enumerate(self) if selection.match_element(element))`,
which on a well-formed index enumerates positions `0..len(self)-1` and
keeps the matching ones, in order. -/
def selIndices (C : Index E) (p : E → Bool) : List Int :=
  ((List.range C.length).filter
    (fun i : Nat => ((C.get (i : Int)).map p).getD false)).map
    (fun i : Nat => (i : Int))

mutual
/-- `sel`: compile a selection; if it is empty return `self`;
`MultiIndex.sel` rebuilds a `MultiIndex` from each child's own `sel`,
every other index returns `new_mask_index(self, matching positions)`. -/
def sel (s : SelSig E) : Index E → Index E
  | .multi cs => if s.isEmpty then .multi cs else .multi (Index.selAll s cs)
  | .ofList l => if s.isEmpty then .ofList l
      else .mask (.ofList l) ((Index.ofList l).selIndices s.matchElt)
  | .mask b idxs => if s.isEmpty then .mask b idxs
      else .mask (.mask b idxs) ((Index.mask b idxs).selIndices s.matchElt)

def selAll (s : SelSig E) : List (Index E) → List (Index E)
  | [] => []
  | c :: cs => Index.sel s c :: Index.selAll s cs
end

/-- The position comparator of `Index.order_by`:
`cmp(i, j) = order.compare_elements(self[i], self[j])`.  Positions the
source never compares (out of range) default to a tie. -/
def cmpAt (C : Index E) (cmp : E → E → Int) (i j : Nat) : Int :=
  match C.get (i : Int), C.get (j : Int) with
  | some a, some b => cmp a b
  | _, _ => 0

/-- The sorted position permutation of `Index.order_by`:
`sorted(range(len(self)), key=functools.cmp_to_key(cmp))` with
`cmp(i, j) = order.compare_elements(self[i], self[j])`.  Python's
`sorted` is a stable sort; it is modelled by the stable `mergeSort`
on the non-strict comparator, which agrees with any stable sort
whenever the comparator is a total preorder on the compared
positions. -/
def sortPerm (C : Index E) (cmp : E → E → Int) : List Nat :=
  (List.range C.length).mergeSort (fun i j => C.cmpAt cmp i j ≤ 0)

/-- `order_by`: compile an ordering; if it is empty return `self`;
otherwise return `new_mask_index(self, sorted positions)`.  (The
default `Index.order_by` is not overridden by `MaskIndex` or
`MultiIndex`.) -/
def order_by (o : OrdSig E) (C : Index E) : Index E :=
  if o.isEmpty then C else .mask C ((C.sortPerm o.cmp).map (fun i : Nat => (i : Int)))

end Index

/-
The comparator compiler (`SelectionBase`, `Selection`, `OrderBase`,
`Order` of climetlab/core/index.py).  Supplied keyword values are
modelled by `SelVal` / `OrdVal`; positional arguments by `SelArg` /
`OrdArg`.  Python dicts are insertion-ordered association lists:
assignment to an existing key keeps its position, new keys append.
(`datetime.datetime` scalars are accepted by the same branch as the
other scalars and are not modelled separately.)
-/

/-- A value supplied for a `Selection` key: `None`, the `cml.ALL`
wildcard marker, a callable predicate, a list/tuple/set, a scalar, or
a value of an unsupported type (an opaque object, carrying its
identity). -/
inductive SelVal : Type where
  | vnone
  | vall
  | vfun : (Option PyVal → Bool) → SelVal
  | vlist : List PyVal → SelVal
  | vtuple : List PyVal → SelVal
  | vset : List PyVal → SelVal
  | vscalar : PyVal → SelVal
  | vother : Nat → SelVal

/-- The `SelectionBase.__init__` assert:
`v is None or v == cml.ALL or callable(v) or isinstance(v, (list,
tuple, set)) or isinstance(v, (str, int, float, datetime.datetime))`. -/
def selSupported : SelVal → Bool
  | .vother _ => false
  | _ => true

/-- A positional argument to `SelectionBase.__init__`: `None`, a
dictionary, or anything else (which trips `assert False, a`). -/
inductive SelArg : Type where
  | anone
  | adict : List (String × SelVal) → SelArg
  | aother

/-- Python `d.update(e)` on insertion-ordered dicts: existing keys are
overwritten in place, new keys are appended in `e`'s order. -/
def dictUpdate {V : Type} (d e : List (String × V)) : List (String × V) :=
  (d.map (fun kv =>
    match e.find? (fun kv2 => kv2.1 == kv.1) with
    | some kv2 => (kv.1, kv2.2)
    | none => kv))
  ++ e.filter (fun kv2 => !(d.any (fun kv => kv.1 == kv2.1)))

/-- `SelectionBase.__init__`: fold positional arguments (`None`
skipped, dicts merged, anything else asserts), merge keyword
arguments on top, then validate the values of the *keyword* arguments
only.  Returns the merged kwargs dict. -/
def selectionBaseInit (args : List SelArg) (kwargs : List (String × SelVal)) :
    Except String (List (String × SelVal)) := do
  let d ← args.foldlM (fun d a =>
      match a with
      | SelArg.anone => Except.ok d
      | SelArg.adict e => Except.ok (dictUpdate d e)
      | SelArg.aother => Except.error "AssertionError") ([] : List (String × SelVal))
  let d := dictUpdate d kwargs
  let _ ← kwargs.foldlM (fun x kv =>
      if selSupported kv.2 then Except.ok x else Except.error "AssertionError") ()
  return d

/-- The two-state membership tester `Selection.InList`: `first` is
true until the lazy cast has run, `lst` is the (possibly already
coerced) membership collection. -/
structure InListState : Type where
  first : Bool
  lst : List PyVal
deriving Repr

/-- A compiled per-key action of `Selection`: the always-true lambda,
a caller-supplied callable, or an `InList` instance. -/
inductive SelAction : Type where
  | always
  | fromFun : (Option PyVal → Bool) → SelAction
  | inList : InListState → SelAction

/-- The action compiled by `Selection.__init__` for one value: `None`
or `ALL` give the always-true predicate, a callable is used verbatim,
anything else is wrapped into a list if needed, converted to a set,
and handed to `InList`. -/
def buildSelAction : SelVal → SelAction
  | .vnone => .always
  | .vall => .always
  | .vfun f => .fromFun f
  | .vlist l => .inList ⟨true, pySet l⟩
  | .vtuple l => .inList ⟨true, pySet l⟩
  | .vset l => .inList ⟨true, pySet l⟩
  | .vscalar v => .inList ⟨true, pySet [v]⟩
  | .vother i => .inList ⟨true, pySet [.vobj i]⟩

/-- The full `Selection(*args, **kwargs)` constructor: `SelectionBase`
merging and validation, then action compilation (which never fails).
Returns the merged kwargs and the compiled actions. -/
def selectionInit (args : List SelArg) (kwargs : List (String × SelVal)) :
    Except String (List (String × SelVal) × List (String × SelAction)) := do
  let d ← selectionBaseInit args kwargs
  return (d, d.map (fun kv => (kv.1, buildSelAction kv.2)))

/-- The element-wise cast `[cast(y) for y in self.lst]`; the first
failing cast aborts the comprehension with its exception. -/
def castList (t : PyType) : List PyVal → Except String (List PyVal)
  | [] => .ok []
  | y :: ys => do
      let y' ← pyCast t y
      let ys' ← castList t ys
      .ok (y' :: ys')

/-- `InList.__call__(x)`: on the first invocation with a non-`None`
probe, cast every member of the stored collection to the probe's
runtime type and clear `first`; then test membership with Python
`in`.  A `None` probe does not trigger the cast (and is a member of
nothing here). -/
def runSelAction : SelAction → Option PyVal → Except String (Bool × SelAction)
  | .always, _ => .ok (true, .always)
  | .fromFun f, x => .ok (f x, .fromFun f)
  | .inList st, x =>
    match st.first, x with
    | true, some v => do
        let l ← castList v.typeOf st.lst
        .ok (pyMem (some v) l, .inList ⟨false, l⟩)
    | _, _ => .ok (pyMem x st.lst, .inList st)

/-- `SelectionBase.match_element(element)`:
`all(v(element.metadata(k)) for k, v in self.actions.items())`, a
short-circuiting conjunction evaluated in declaration order; the
(possibly state-advanced) actions are returned alongside the
boolean. -/
def matchElement : List (String × SelAction) → (String → Option PyVal) →
    Except String (Bool × List (String × SelAction))
  | [], _ => .ok (true, [])
  | (k, act) :: rest, m => do
      let ba ← runSelAction act (m k)
      if ba.1 then do
        let br ← matchElement rest m
        .ok (br.1, (k, ba.2) :: br.2)
      else
        .ok (false, (k, ba.2) :: rest)

/-- A value supplied for an `Order` key: `None`, a callable
comparator, a list/tuple/set, a string (`"ascending"`/`"descending"`
or any other string), or a value of an unsupported type. -/
inductive OrdVal : Type where
  | onone
  | ofun : (Option PyVal → Option PyVal → Except String Int) → OrdVal
  | olist : List PyVal → OrdVal
  | otuple : List PyVal → OrdVal
  | oset : List PyVal → OrdVal
  | ostr : String → OrdVal
  | oother

/-- The `OrderBase.__init__` assert: `v is None or callable(v) or
isinstance(v, (list, tuple, set)) or v in ["ascending",
"descending"]`. -/
def ordSupported : OrdVal → Bool
  | .onone => true
  | .ofun _ => true
  | .olist _ => true
  | .otuple _ => true
  | .oset _ => true
  | .ostr s => s == "ascending" || s == "descending"
  | .oother => false

/-- A positional argument to `OrderBase.__init__`: `None` (skipped), a
dictionary (merged), a string (that key set to `"ascending"`), or
anything else (`assert False, a`). -/
inductive OrdArg : Type where
  | anone
  | adict : List (String × OrdVal) → OrdArg
  | astr : String → OrdArg
  | aother

/-- `OrderBase.__init__` up to and including the keyword-value
validation (everything before `build_actions`): returns the merged
kwargs dict. -/
def orderBaseInit (args : List OrdArg) (kwargs : List (String × OrdVal)) :
    Except String (List (String × OrdVal)) := do
  let d ← args.foldlM (fun d a =>
      match a with
      | OrdArg.anone => Except.ok d
      | OrdArg.adict e => Except.ok (dictUpdate d e)
      | OrdArg.astr s => Except.ok (dictUpdate d [(s, OrdVal.ostr "ascending")])
      | OrdArg.aother => Except.error "AssertionError") ([] : List (String × OrdVal))
  let d := dictUpdate d kwargs
  let _ ← kwargs.foldlM (fun x kv =>
      if ordSupported kv.2 then Except.ok x else Except.error "AssertionError") ()
  return d

/-- Python `a < b` on metadata values: numbers compare numerically,
strings lexicographically, everything else (mixed types, `object`s)
raises `TypeError`. -/
def pyLt : PyVal → PyVal → Except String Bool
  | .vint a, .vint b => .ok (a < b)
  | .vint a, .vfloat q => .ok ((a : Rat) < q)
  | .vfloat q, .vint a => .ok (q < (a : Rat))
  | .vfloat a, .vfloat b => .ok (a < b)
  | .vstr a, .vstr b => .ok (a < b)
  | _, _ => .error "TypeError"

/-- The `ascending` comparator of `Order.build_actions`: `a == b`
gives 0, `a > b` gives 1, `a < b` gives -1, otherwise `ValueError`;
a comparison involving `None` or incomparable types raises.  (`a > b`
is evaluated as `b < a`, which coincides with CPython on the types
modelled.) -/
def pyAscending (a b : Option PyVal) : Except String Int :=
  if pyEqOpt a b then .ok 0
  else match a, b with
    | some a', some b' => do
        let g ← pyLt b' a'
        if g then .ok 1 else do
          let l ← pyLt a' b'
          if l then .ok (-1) else .error "ValueError"
    | _, _ => .error "TypeError"

/-- The `descending` comparator of `Order.build_actions`, the mirror
image of `ascending`. -/
def pyDescending (a b : Option PyVal) : Except String Int :=
  if pyEqOpt a b then .ok 0
  else match a, b with
    | some a', some b' => do
        let g ← pyLt b' a'
        if g then .ok (-1) else do
          let l ← pyLt a' b'
          if l then .ok 1 else .error "TypeError"
    | _, _ => .error "TypeError"

/-- Python dict assignment `order[key] = i` on a `pyEq`-keyed dict:
an existing (Python-equal) key keeps its slot and gets the new value,
a new key is appended. -/
def rankUpdate (t : List (PyVal × Nat)) (key : PyVal) (i : Nat) :
    List (PyVal × Nat) :=
  if t.any (fun kv => pyEq kv.1 key) then
    t.map (fun kv => if pyEq kv.1 key then (kv.1, i) else kv)
  else t ++ [(key, i)]

/-- The rank-table loop of `Order.build_actions`: for each listed
value, its `str` form is ranked, then its `int` form and its `float`
form when those conversions succeed (`ValueError` is swallowed, any
other conversion error propagates, as in the `try/except ValueError`
of the source). -/
def buildRank (v : List PyVal) : Except String (List (PyVal × Nat)) :=
  v.enum.foldlM (fun t ik => do
      let t := rankUpdate t (.vstr (pyStr ik.2)) ik.1
      let t ← match pyToInt ik.2 with
        | .ok n => pure (rankUpdate t (.vint n) ik.1)
        | .error e => if e == "ValueError" then pure t else throw e
      let t ← match pyToFloat ik.2 with
        | .ok q => pure (rankUpdate t (.vfloat q) ik.1)
        | .error e => if e == "ValueError" then pure t else throw e
      pure t) []

/-- A compiled per-key action of `Order`: `ascending`, `descending`, a
caller-supplied comparator, or a `Compare` instance holding a rank
table. -/
inductive OrdAction : Type where
  | asc
  | desc
  | fromFun : (Option PyVal → Option PyVal → Except String Int) → OrdAction
  | rank : List (PyVal × Nat) → OrdAction

/-- The action compiled by `Order.build_actions` for one value, in the
source's branch order: `"ascending"`/`None`, `"descending"`, a
callable, then `assert isinstance(v, (list, tuple))` (a set or any
other value fails here) and the rank table. -/
def buildOrdAction : OrdVal → Except String OrdAction
  | .onone => .ok .asc
  | .ostr s =>
      if s == "ascending" then .ok .asc
      else if s == "descending" then .ok .desc
      else .error "AssertionError"
  | .ofun f => .ok (.fromFun f)
  | .olist l => (buildRank l).map .rank
  | .otuple l => (buildRank l).map .rank
  | .oset _ => .error "AssertionError"
  | .oother => .error "AssertionError"

/-- `Order.build_actions` over the merged kwargs dict, in declaration
order. -/
def buildOrdActions (d : List (String × OrdVal)) :
    Except String (List (String × OrdAction)) :=
  d.mapM (fun kv => (buildOrdAction kv.2).map (fun a => (kv.1, a)))

/-- The full `Order(*args, **kwargs)` constructor: `OrderBase` merging
and keyword validation, then `self.actions = self.build_actions(
self.kwargs)` (which can itself fail, still at construction time). -/
def orderInit (args : List OrdArg) (kwargs : List (String × OrdVal)) :
    Except String (List (String × OrdVal) × List (String × OrdAction)) := do
  let d ← orderBaseInit args kwargs
  let acts ← buildOrdActions d
  return (d, acts)

/-- `Compare.get(x)`: `self.order[x]`, a dict lookup that raises
`KeyError` when the probe value is absent from the rank table (also
when the probe is `None`). -/
def rankGet (t : List (PyVal × Nat)) : Option PyVal → Except String Nat
  | none => .error "KeyError"
  | some v =>
      match t.find? (fun kv => pyEq kv.1 v) with
      | some kv => .ok kv.2
      | none => .error "KeyError"

/-- `ascending` specialised to two rank numbers (never raises). -/
def natAscending (a b : Nat) : Int :=
  if a == b then 0 else if a > b then 1 else -1

/-- Evaluation of one compiled `Order` action on the two metadata
values;  `Compare.__call__(a, b)` is
`ascending(self.get(a), self.get(b))`. -/
def runOrdAction : OrdAction → Option PyVal → Option PyVal → Except String Int
  | .asc, a, b => pyAscending a b
  | .desc, a, b => pyDescending a b
  | .fromFun f, a, b => f a b
  | .rank t, a, b => do
      let ra ← rankGet t a
      let rb ← rankGet t b
      .ok (natAscending ra rb)

/-- `OrderBase.compare_elements(a, b)`: walk the actions in
declaration order, return the first nonzero per-key comparison, else
0; any exception from an action propagates. -/
def compareElements (actions : List (String × OrdAction))
    (ma mb : String → Option PyVal) : Except String Int :=
  match actions with
  | [] => .ok 0
  | (k, act) :: rest => do
      let n ← runOrdAction act (ma k) (mb k)
      if n ≠ 0 then .ok n else compareElements rest ma mb

/-
The availability / hypercube layer
(climetlab/readers/grib/index/__init__.py).  An element's metadata is
a dict `String → Option PyVal`; `FieldSet.custom_availability` feeds
the factorisation tree one stripped dict per element.
-/

/-- The fixed exclusion set of `FieldSet.availability`. -/
def availabilityIgnoreKeys : List String :=
  ["_param_id", "mean", "std", "min", "max", "valid", "param_level",
   "_path", "_length", "_offset"]

/-- One step of the `dicts()` generator of
`FieldSet.custom_availability`: pop the ignore keys, then drop
`None`-valued entries. -/
def stripDict (ignore : List String) (d : List (String × Option PyVal)) :
    List (String × PyVal) :=
  (d.filter (fun kv => !(ignore.contains kv.1))).filterMap
    (fun kv => kv.2.map (fun v => (kv.1, v)))

/-- Lookup in a metadata dict. -/
def dictLookup (d : List (String × PyVal)) (k : String) : Option PyVal :=
  (d.find? (fun kv => kv.1 == k)).map Prod.snd

/-- Insertion-ordered deduplication of a key list. -/
def dedupKeys (l : List String) : List String :=
  l.foldl (fun acc k => if acc.contains k then acc else acc ++ [k]) []

/-- Modelled from the spec: `Tree.unique_values()` of the availability
factorisation tree (`climetlab/utils/factorise.py`, which is not under
`src/`) maps each metadata key to the set of distinct values that the
key takes across the elements the tree was built from. -/
def uniqueValues (dicts : List (List (String × PyVal))) :
    List (String × List PyVal) :=
  let keys := dedupKeys ((dicts.map (fun d => d.map Prod.fst)).flatten)
  keys.map (fun k => (k, pySet (dicts.filterMap (fun d => dictLookup d k))))

/-- The `expected_size` of `FieldSet.is_full_hypercube`: the product of
the cardinalities of the keys with more than one distinct value (the
"non-empty coordinates"). -/
def expectedSize (dicts : List (List (String × PyVal))) : Nat :=
  (((uniqueValues dicts).filter (fun kv => 1 < kv.2.length)).map
    (fun kv => kv.2.length)).prod

/-- `FieldSet.is_full_hypercube()`: build the availability dicts (one
stripped metadata dict per element), and compare the collection length
with the product of the non-singleton coordinate cardinalities. -/
def is_full_hypercube (ignore : List String)
    (metadata : List (List (String × Option PyVal))) : Bool :=
  let dicts := metadata.map (stripDict ignore)
  dicts.length == expectedSize dicts

/-- The six-element collection of the hypercube test case: key `x`
ranges over `{1, 2, 3}`, key `y` over `{"a", "b"}`, one element per
combination. -/
def hypercube6 : List (List (String × Option PyVal)) :=
  [[("x", some (.vint 1)), ("y", some (.vstr "a"))],
   [("x", some (.vint 1)), ("y", some (.vstr "b"))],
   [("x", some (.vint 2)), ("y", some (.vstr "a"))],
   [("x", some (.vint 2)), ("y", some (.vstr "b"))],
   [("x", some (.vint 3)), ("y", some (.vstr "a"))],
   [("x", some (.vint 3)), ("y", some (.vstr "b"))]]

/-- Totalised extension of a position comparator beyond `n`: positions
the sort never compares are placed in one shared top class.  Proof
infrastructure only; `sortPerm` itself never consults it. -/
def leExt (n : Nat) (le : Nat → Nat → Bool) (i j : Nat) : Bool :=
  if i < n then (if j < n then le i j else true)
  else (if j < n then false else true)

/-
Theorems.  First the claims that need no structural induction over
the view hierarchy.
-/

/-- C4: for indices `A` (length `a`) and `B` (length `b`) and every
non-negative `k < a + b`, `MultiIndex([A, B])[k]` is `A[k]` when
`k < a` and `B[k - a]` when `a ≤ k < a + b`, and
`len(MultiIndex([A, B])) == a + b`. -/
theorem multiIndex_concat_spec {E : Type} (A B : Index E) (k : Nat)
    (hk : k < A.length + B.length) :
    (Index.multi [A, B]).length = A.length + B.length
    ∧ (k < A.length → (Index.multi [A, B]).get (k : Int) = A.get (k : Int))
    ∧ (A.length ≤ k →
        (Index.multi [A, B]).get (k : Int) = B.get ((k - A.length : Nat) : Int)) := by
  refine ⟨by simp [Index.length, Index.lengthMulti], ?_, ?_⟩
  · intro h
    simp only [Index.get, Index.getMulti]
    rw [if_neg]
    omega
  · intro h
    simp only [Index.get, Index.getMulti]
    rw [if_pos (by omega), if_neg (by omega)]
    congr 1
    omega

/-- C4 witness: a concrete instance with `A = [10, 11]`, `B = [20]`,
`k = 2`. -/
theorem multiIndex_concat_spec_witness :
    (2 < (Index.ofList [10, 11] : Index Int).length + (Index.ofList [20] : Index Int).length)
    ∧ ((Index.multi [Index.ofList [10, 11], Index.ofList [20]] : Index Int).length
        = (Index.ofList [10, 11] : Index Int).length + (Index.ofList [20] : Index Int).length
      ∧ (2 < (Index.ofList [10, 11] : Index Int).length →
          (Index.multi [Index.ofList [10, 11], Index.ofList [20]]).get (2 : Int)
            = (Index.ofList [10, 11] : Index Int).get (2 : Int))
      ∧ ((Index.ofList [10, 11] : Index Int).length ≤ 2 →
          (Index.multi [Index.ofList [10, 11], Index.ofList [20]]).get (2 : Int)
            = (Index.ofList [20] : Index Int).get
                ((2 - (Index.ofList [10, 11] : Index Int).length : Nat) : Int))) :=
  ⟨by decide, multiIndex_concat_spec (Index.ofList [10, 11]) (Index.ofList [20]) 2 (by decide)⟩

/-- C10: a negative position `-len(A) ≤ n ≤ -1` on a `MultiIndex`
whose first child is `A` is handed directly to `A` (the while loop
never fires), so `M[n] = A[n]`; in particular when `A` is backed by a
non-empty Python list, `M[-1]` is the last element of the first
child. -/
theorem multiIndex_negative_position_first_child {E : Type} (A : Index E)
    (rest : List (Index E)) (n : Int)
    (h1 : -(A.length : Int) ≤ n) (h2 : n ≤ -1) :
    (Index.multi (A :: rest)).get n = A.get n
    ∧ (∀ l : List E, A = Index.ofList l → l ≠ [] →
        (Index.multi (A :: rest)).get (-1) = l.getLast?) := by
  constructor
  · simp only [Index.get, Index.getMulti]
    rw [if_neg]
    omega
  · intro l hA hne
    subst hA
    have hlen : 1 ≤ l.length := by
      cases l with
      | nil => exact absurd rfl hne
      | cons a t => simp
    simp only [Index.get, Index.getMulti, Index.length]
    rw [if_neg (by omega)]
    simp only [Index.get, pyListGet]
    rw [if_neg (by omega), if_pos (by omega), List.getLast?_eq_get?]
    congr 1
    omega

/-- C10 witness: `M = MultiIndex([[5, 6], [7]])`, `n = -1`. -/
theorem multiIndex_negative_position_first_child_witness :
    (-(((Index.ofList [5, 6] : Index Int)).length : Int) ≤ -1 ∧ (-1 : Int) ≤ -1)
    ∧ ((Index.multi (Index.ofList [5, 6] :: [Index.ofList [7]])).get (-1)
          = (Index.ofList [5, 6] : Index Int).get (-1)
      ∧ (∀ l : List Int, Index.ofList [5, 6] = Index.ofList l → l ≠ [] →
          (Index.multi (Index.ofList [5, 6] :: [Index.ofList [7]])).get (-1) = l.getLast?)) :=
  ⟨⟨by decide, by decide⟩,
   multiIndex_negative_position_first_child (Index.ofList [5, 6]) [Index.ofList [7]]
     (-1) (by decide) (by decide)⟩

/-- C8: `sel` with an empty selection and `order_by` with an empty
ordering both return the receiver itself, so contents and length are
unchanged; `Selection()` and `Order()` built from no arguments do
compile to the empty keyword mapping (whose `is_empty` is true). -/
theorem noop_sel_orderBy_identity {E : Type} (C : Index E) (f : E → Bool)
    (g : E → E → Int) :
    Index.sel ⟨true, f⟩ C = C
    ∧ Index.order_by ⟨true, g⟩ C = C
    ∧ (Index.sel ⟨true, f⟩ C).elems = C.elems
    ∧ (Index.sel ⟨true, f⟩ C).length = C.length
    ∧ (Index.order_by ⟨true, g⟩ C).elems = C.elems
    ∧ (Index.order_by ⟨true, g⟩ C).length = C.length
    ∧ selectionInit [] [] = Except.ok ([], [])
    ∧ orderInit [] [] = Except.ok ([], []) := by
  have h1 : Index.sel ⟨true, f⟩ C = C := by
    cases C <;> simp [Index.sel]
  have h2 : Index.order_by ⟨true, g⟩ C = C := by
    simp [Index.order_by]
  exact ⟨h1, h2, by rw [h1], by rw [h1], by rw [h2], by rw [h2], rfl, rfl⟩

/-- C3: on a `MultiIndex`, a non-empty selection rebuilds a new
`MultiIndex` whose children are each child's own `sel` result, so
`MultiIndex([A, B]).sel(P)` and `MultiIndex([A.sel(P), B.sel(P)])` are
the same view with the same elements in the same order. -/
theorem sel_distributes_over_concat {E : Type} (A B : Index E) (s : SelSig E)
    (h : s.isEmpty = false) :
    Index.sel s (Index.multi [A, B]) = Index.multi [Index.sel s A, Index.sel s B]
    ∧ (Index.sel s (Index.multi [A, B])).elems
        = (Index.multi [Index.sel s A, Index.sel s B]).elems := by
  have h1 : Index.sel s (Index.multi [A, B])
      = Index.multi [Index.sel s A, Index.sel s B] := by
    simp [Index.sel, Index.selAll, h]
  exact ⟨h1, by rw [h1]⟩

/-- C3 witness: a concrete non-empty selection over two concrete
children. -/
theorem sel_distributes_over_concat_witness :
    ((⟨false, fun e : Int => decide (e = 1)⟩ : SelSig Int).isEmpty = false)
    ∧ (Index.sel ⟨false, fun e : Int => decide (e = 1)⟩
          (Index.multi [Index.ofList [1, 2], Index.ofList [1]])
        = Index.multi
            [Index.sel ⟨false, fun e : Int => decide (e = 1)⟩ (Index.ofList [1, 2]),
             Index.sel ⟨false, fun e : Int => decide (e = 1)⟩ (Index.ofList [1])]
      ∧ (Index.sel ⟨false, fun e : Int => decide (e = 1)⟩
            (Index.multi [Index.ofList [1, 2], Index.ofList [1]])).elems
          = (Index.multi
              [Index.sel ⟨false, fun e : Int => decide (e = 1)⟩ (Index.ofList [1, 2]),
               Index.sel ⟨false, fun e : Int => decide (e = 1)⟩ (Index.ofList [1])]).elems) :=
  ⟨rfl, sel_distributes_over_concat (Index.ofList [1, 2]) (Index.ofList [1])
    ⟨false, fun e : Int => decide (e = 1)⟩ rfl⟩

/-- The keyword-validation fold of `SelectionBase.__init__` /
`OrderBase.__init__` succeeds iff every keyword value passes the
supported-type check. -/
theorem validationFold {V : Type} (p : V → Bool) (kwargs : List (String × V)) :
    (kwargs.foldlM
        (fun x kv => if p kv.2 then Except.ok x else Except.error "AssertionError")
        (() : Unit))
      = (if kwargs.all (fun kv => p kv.2) then Except.ok ()
         else Except.error "AssertionError") := by
  induction kwargs with
  | nil => rfl
  | cons kv rest ih =>
    by_cases h : p kv.2 = true
    · simp only [List.foldlM_cons, h, if_true, List.all_cons, Bool.true_and]
      exact ih
    · simp only [Bool.not_eq_true] at h
      simp only [List.foldlM_cons, h, List.all_cons, Bool.false_and]
      rfl

/-- C5 (amended): every unsupported value passed as a *keyword*
argument makes `Selection` / `Order` construction fail at once. -/
theorem keyword_value_validation :
    (∀ (args : List SelArg) (kwargs : List (String × SelVal)),
        (∃ kv ∈ kwargs, selSupported kv.2 = false) →
        (selectionInit args kwargs).isOk = false)
    ∧ (∀ (args : List OrdArg) (kwargs : List (String × OrdVal)),
        (∃ kv ∈ kwargs, ordSupported kv.2 = false) →
        (orderInit args kwargs).isOk = false) := by
  constructor
  · rintro args kwargs ⟨kv, hmem, hbad⟩
    have hall : kwargs.all (fun kv => selSupported kv.2) = false :=
      List.all_eq_false.mpr ⟨kv, hmem, by simp [hbad]⟩
    unfold selectionInit selectionBaseInit
    cases hfold : args.foldlM
        (fun d a =>
          match a with
          | SelArg.anone => Except.ok d
          | SelArg.adict e => Except.ok (dictUpdate d e)
          | SelArg.aother => Except.error "AssertionError")
        ([] : List (String × SelVal)) with
    | error e => rfl
    | ok d =>
      simp only [validationFold, hall]
      rfl
  · rintro args kwargs ⟨kv, hmem, hbad⟩
    have hall : kwargs.all (fun kv => ordSupported kv.2) = false :=
      List.all_eq_false.mpr ⟨kv, hmem, by simp [hbad]⟩
    unfold orderInit orderBaseInit
    cases hfold : args.foldlM
        (fun d a =>
          match a with
          | OrdArg.anone => Except.ok d
          | OrdArg.adict e => Except.ok (dictUpdate d e)
          | OrdArg.astr s => Except.ok (dictUpdate d [(s, OrdVal.ostr "ascending")])
          | OrdArg.aother => Except.error "AssertionError")
        ([] : List (String × OrdVal)) with
    | error e => rfl
    | ok d =>
      simp only [validationFold, hall]
      rfl

/-- C5 witness: an unsupported object as a keyword value fails both
constructors. -/
theorem keyword_value_validation_witness :
    (∃ kv ∈ [("level", SelVal.vother 0)], selSupported kv.2 = false)
    ∧ (selectionInit [] [("level", SelVal.vother 0)]).isOk = false
    ∧ (∃ kv ∈ [("time", OrdVal.oother)], ordSupported kv.2 = false)
    ∧ (orderInit [] [("time", OrdVal.oother)]).isOk = false :=
  ⟨⟨("level", SelVal.vother 0), by simp, rfl⟩,
   keyword_value_validation.1 [] [("level", SelVal.vother 0)]
     ⟨("level", SelVal.vother 0), by simp, rfl⟩,
   ⟨("time", OrdVal.oother), by simp, rfl⟩,
   keyword_value_validation.2 [] [("time", OrdVal.oother)]
     ⟨("time", OrdVal.oother), by simp, rfl⟩⟩

/-- C5 counterexample: an unsupported value inside a *positional
dictionary* does not fail `Selection` construction — the validation
loop only inspects the keyword arguments, and action compilation
happily wraps the object into a membership set. -/
theorem positional_dict_value_not_validated :
    selectionInit [SelArg.adict [("level", SelVal.vother 0)]] []
      = Except.ok ([("level", SelVal.vother 0)],
          [("level", SelAction.inList ⟨true, [PyVal.vobj 0]⟩)]) := rfl

/-- C6 (amended): with a rank-table ordering, comparing two elements
whose metadata values for the key are both absent from the rank table
raises `KeyError` (the lookup `self.order[x]` fails) instead of
returning a tie. -/
theorem rank_table_missing_value_raises (t : List (PyVal × Nat)) (k : String)
    (ma mb : String → Option PyVal) (va vb : PyVal)
    (hma : ma k = some va) (hmb : mb k = some vb)
    (ha : t.find? (fun kv => pyEq kv.1 va) = none)
    (hb : t.find? (fun kv => pyEq kv.1 vb) = none) :
    compareElements [(k, OrdAction.rank t)] ma mb = Except.error "KeyError" := by
  simp only [compareElements, runOrdAction, rankGet, hma, hmb, ha, hb]
  rfl

/-- C6 witness: the rank table of `Order(step=[1, 2])` and two
elements whose `step` values are 3 and 4. -/
theorem rank_table_missing_value_raises_witness :
    ((fun _ : String => some (PyVal.vint 3)) "step" = some (PyVal.vint 3))
    ∧ ((fun _ : String => some (PyVal.vint 4)) "step" = some (PyVal.vint 4))
    ∧ ([(PyVal.vstr "1", 0), (PyVal.vint 1, 0), (PyVal.vstr "2", 1),
        (PyVal.vint 2, 1)].find? (fun kv => pyEq kv.1 (PyVal.vint 3)) = none)
    ∧ ([(PyVal.vstr "1", 0), (PyVal.vint 1, 0), (PyVal.vstr "2", 1),
        (PyVal.vint 2, 1)].find? (fun kv => pyEq kv.1 (PyVal.vint 4)) = none)
    ∧ compareElements
        [("step", OrdAction.rank
          [(PyVal.vstr "1", 0), (PyVal.vint 1, 0), (PyVal.vstr "2", 1), (PyVal.vint 2, 1)])]
        (fun _ => some (PyVal.vint 3)) (fun _ => some (PyVal.vint 4))
      = Except.error "KeyError" :=
  ⟨rfl, rfl, rfl, rfl,
   rank_table_missing_value_raises _ "step" _ _ (PyVal.vint 3) (PyVal.vint 4)
     rfl rfl rfl rfl⟩

/-- C6 counterexample: `Order(step=[1, 2])` compiles to a rank table
in which neither `3` nor `4` appears; comparing two elements with
`step` values 3 and 4 raises `KeyError`, it does not return 0. -/
theorem rank_table_missing_value_counterexample :
    (orderInit [] [("step", OrdVal.olist [PyVal.vint 1, PyVal.vint 2])]
      = Except.ok ([("step", OrdVal.olist [PyVal.vint 1, PyVal.vint 2])],
          [("step", OrdAction.rank
            [(PyVal.vstr "1", 0), (PyVal.vint 1, 0), (PyVal.vstr "2", 1),
             (PyVal.vint 2, 1)])]))
    ∧ compareElements
        [("step", OrdAction.rank
          [(PyVal.vstr "1", 0), (PyVal.vint 1, 0), (PyVal.vstr "2", 1), (PyVal.vint 2, 1)])]
        (fun _ => some (PyVal.vint 3)) (fun _ => some (PyVal.vint 4))
      = Except.error "KeyError"
    ∧ (Except.error "KeyError" : Except String Int) ≠ Except.ok 0 :=
  ⟨by rfl, rfl, by simp⟩

/-- C7: `Selection(level=[500])` compiles to an `InList` whose first
invocation with the non-`None` probe `"500"` casts every member to
the probe's runtime type (so `match_element` accepts the element and
the returned action carries the coerced list `["500"]` with `first`
cleared); in general the first call applies the element-wise cast and
freezes its result, and any later call reuses the stored list without
touching it. -/
theorem selection_inlist_lazy_coercion (lst l' : List PyVal) (x : PyVal)
    (st : InListState) (y : Option PyVal)
    (hcast : castList x.typeOf lst = Except.ok l') (hst : st.first = false) :
    (selectionInit [] [("level", SelVal.vlist [PyVal.vint 500])]
        = Except.ok ([("level", SelVal.vlist [PyVal.vint 500])],
            [("level", SelAction.inList ⟨true, [PyVal.vint 500]⟩)]))
    ∧ (matchElement [("level", SelAction.inList ⟨true, [PyVal.vint 500]⟩)]
          (fun k => if k == "level" then some (PyVal.vstr "500") else none)
        = Except.ok (true, [("level", SelAction.inList ⟨false, [PyVal.vstr "500"]⟩)]))
    ∧ (runSelAction (SelAction.inList ⟨true, lst⟩) (some x)
        = Except.ok (pyMem (some x) l', SelAction.inList ⟨false, l'⟩))
    ∧ (runSelAction (SelAction.inList st) y
        = Except.ok (pyMem y st.lst, SelAction.inList st)) := by
  refine ⟨rfl, rfl, ?_, ?_⟩
  · simp only [runSelAction, hcast]
    rfl
  · obtain ⟨f, l⟩ := st
    simp only at hst
    subst hst
    cases y <;> rfl

/-- C7 witness: first call with probe `"7"` on stored `[7]`, then a
later call on an already-coerced action. -/
theorem selection_inlist_lazy_coercion_witness :
    (castList (PyVal.vstr "7").typeOf [PyVal.vint 7] = Except.ok [PyVal.vstr "7"])
    ∧ ((⟨false, [PyVal.vstr "9"]⟩ : InListState).first = false)
    ∧ ((selectionInit [] [("level", SelVal.vlist [PyVal.vint 500])]
          = Except.ok ([("level", SelVal.vlist [PyVal.vint 500])],
              [("level", SelAction.inList ⟨true, [PyVal.vint 500]⟩)]))
      ∧ (matchElement [("level", SelAction.inList ⟨true, [PyVal.vint 500]⟩)]
            (fun k => if k == "level" then some (PyVal.vstr "500") else none)
          = Except.ok (true, [("level", SelAction.inList ⟨false, [PyVal.vstr "500"]⟩)]))
      ∧ (runSelAction (SelAction.inList ⟨true, [PyVal.vint 7]⟩) (some (PyVal.vstr "7"))
          = Except.ok (pyMem (some (PyVal.vstr "7")) [PyVal.vstr "7"],
              SelAction.inList ⟨false, [PyVal.vstr "7"]⟩))
      ∧ (runSelAction (SelAction.inList ⟨false, [PyVal.vstr "9"]⟩) (some (PyVal.vstr "9"))
          = Except.ok (pyMem (some (PyVal.vstr "9"))
                (⟨false, [PyVal.vstr "9"]⟩ : InListState).lst,
              SelAction.inList ⟨false, [PyVal.vstr "9"]⟩))) :=
  ⟨rfl, rfl,
   selection_inlist_lazy_coercion [PyVal.vint 7] [PyVal.vstr "7"] (PyVal.vstr "7")
     ⟨false, [PyVal.vstr "9"]⟩ (some (PyVal.vstr "9")) rfl rfl⟩

/-- C9: `is_full_hypercube` compares the collection length with the
product of the non-singleton coordinate cardinalities; on the
six-element `x × y` grid it reports true, and removing any one of the
six elements makes it false. -/
theorem is_full_hypercube_spec :
    (∀ (ignore : List String) (metadata : List (List (String × Option PyVal))),
        is_full_hypercube ignore metadata
          = (metadata.length == expectedSize (metadata.map (stripDict ignore))))
    ∧ is_full_hypercube availabilityIgnoreKeys hypercube6 = true
    ∧ ((List.range 6).all
        (fun i => !(is_full_hypercube availabilityIgnoreKeys (hypercube6.eraseIdx i))))
      = true := by
  refine ⟨?_, by decide, by decide⟩
  intro ignore metadata
  simp [is_full_hypercube]

/-- Python list indexing at a non-negative position is plain list
lookup. -/
theorem pyListGet_ofNat {E : Type} (l : List E) (i : Nat) :
    pyListGet l (i : Int) = l.get? i := by
  simp [pyListGet]

/-- Structural induction over the view hierarchy, with the member
hypothesis for the children of a `MultiIndex`. -/
theorem Index.inductionOn {E : Type} {motive : Index E → Prop}
    (h1 : ∀ l, motive (Index.ofList l))
    (h2 : ∀ b idxs, motive b → motive (Index.mask b idxs))
    (h3 : ∀ cs, (∀ c ∈ cs, motive c) → motive (Index.multi cs)) :
    ∀ C, motive C := fun C =>
  match C with
  | .ofList l => h1 l
  | .mask b idxs => h2 b idxs (Index.inductionOn h1 h2 h3 b)
  | .multi cs => h3 cs (fun c hc => Index.inductionOn h1 h2 h3 c)
termination_by C => sizeOf C
decreasing_by
  · simp
    omega
  · have := List.sizeOf_lt_of_mem hc
    simp
    omega

/-- A `filterMap` by a function that succeeds on every member behaves
like a `map`: same length, position-wise image. -/
theorem filterMap_total {A B : Type} (f : A → Option B) (l : List A)
    (h : ∀ x ∈ l, (f x).isSome = true) :
    (l.filterMap f).length = l.length
    ∧ ∀ k : Nat, (l.filterMap f).get? k = (l.get? k).bind f := by
  induction l with
  | nil => exact ⟨rfl, fun k => by cases k <;> rfl⟩
  | cons a t ih =>
    obtain ⟨b, hb⟩ := Option.isSome_iff_exists.mp (h a (List.mem_cons_self a t))
    obtain ⟨ih1, ih2⟩ := ih (fun x hx => h x (List.mem_cons_of_mem a hx))
    refine ⟨by simp [List.filterMap_cons, hb, ih1], ?_⟩
    intro k
    cases k with
    | zero => simp [List.filterMap_cons, hb]
    | succ k =>
      simp only [List.filterMap_cons, hb, List.get?_cons_succ]
      exact ih2 k

/-- `MultiIndex` child-walking agrees with the concatenation of the
children's element sequences. -/
theorem elemsMulti_spec {E : Type} (cs : List (Index E))
    (ih : ∀ c ∈ cs, c.wf = true →
      c.elems.length = c.length ∧ ∀ i : Nat, c.get (i : Int) = c.elems.get? i)
    (hwf : Index.wfAll cs = true) :
    (Index.elemsMulti cs).length = Index.lengthMulti cs
    ∧ ∀ i : Nat, Index.getMulti cs (i : Int) = (Index.elemsMulti cs).get? i := by
  induction cs with
  | nil => exact ⟨rfl, fun i => by cases i <;> rfl⟩
  | cons c rest ihrest =>
    rw [Index.wfAll, Bool.and_eq_true] at hwf
    obtain ⟨hc1, hc2⟩ := ih c (List.mem_cons_self c rest) hwf.1
    obtain ⟨ih1, ih2⟩ :=
      ihrest (fun c' hc' => ih c' (List.mem_cons_of_mem c hc')) hwf.2
    constructor
    · simp [Index.elemsMulti, Index.lengthMulti, hc1, ih1]
    · intro i
      rw [Index.elemsMulti, Index.getMulti]
      by_cases hi : c.length ≤ i
      · rw [if_pos (by omega)]
        have hcast : ((i : Int) - (c.length : Int)) = ((i - c.length : Nat) : Int) := by
          omega
        rw [hcast, ih2 (i - c.length),
          List.get?_append_right (by rw [hc1]; omega)]
        rw [hc1]
      · rw [if_neg (by omega), hc2 i,
          List.get?_append (by rw [hc1]; omega)]

/-- On a well-formed index, iteration (`self[0], self[1], ...`) is
exactly the element sequence `elems`: the lengths agree and every
position retrieves the corresponding entry. -/
theorem Index.elems_spec {E : Type} (C : Index E) (hwf : C.wf = true) :
    C.elems.length = C.length
    ∧ ∀ i : Nat, C.get (i : Int) = C.elems.get? i := by
  induction C using Index.inductionOn with
  | h1 l => exact ⟨rfl, fun i => pyListGet_ofNat l i⟩
  | h2 b idxs ihb =>
    rw [Index.wf, Bool.and_eq_true] at hwf
    obtain ⟨hlen, hget⟩ := ihb hwf.1
    have htot : ∀ x ∈ idxs, ((fun i => b.get i) x).isSome = true := by
      intro x hx
      have hx2 := List.all_eq_true.mp hwf.2 x hx
      rw [Bool.and_eq_true, decide_eq_true_eq, decide_eq_true_eq] at hx2
      have h0 : ((x.toNat : Nat) : Int) = x := Int.toNat_of_nonneg hx2.1
      simp only
      rw [← h0, hget x.toNat]
      have hlt : x.toNat < b.elems.length := by rw [hlen]; omega
      rw [List.get?_eq_get hlt]
      rfl
    obtain ⟨hfl, hfm⟩ := filterMap_total (fun i => b.get i) idxs htot
    constructor
    · rw [Index.elems, Index.length, hfl]
    · intro i
      rw [Index.get, Index.elems, pyListGet_ofNat, hfm i]
  | h3 cs ih =>
    rw [Index.wf] at hwf
    exact elemsMulti_spec cs ih hwf

/-- Every position that `sel` collects is a non-negative in-range
position of the receiver. -/
theorem selIndices_bounds {E : Type} (C : Index E) (p : E → Bool) :
    ∀ x ∈ C.selIndices p, 0 ≤ x ∧ x < (C.length : Int) := by
  intro x hx
  simp only [Index.selIndices, List.mem_map, List.mem_filter,
    List.mem_range] at hx
  obtain ⟨j, ⟨hj, _⟩, rfl⟩ := hx
  omega

/-- The mask that `sel` builds over a well-formed receiver is
well-formed. -/
theorem wf_mask_selIndices {E : Type} (C : Index E) (p : E → Bool)
    (h : C.wf = true) :
    (Index.mask C (C.selIndices p)).wf = true := by
  rw [Index.wf, Bool.and_eq_true]
  refine ⟨h, List.all_eq_true.mpr ?_⟩
  intro x hx
  obtain ⟨h0, h1⟩ := selIndices_bounds C p x hx
  rw [Bool.and_eq_true, decide_eq_true_eq, decide_eq_true_eq]
  exact ⟨h0, h1⟩

/-- Mapping `sel` over the children of a `MultiIndex` preserves
well-formedness. -/
theorem wfAll_selAll {E : Type} (s : SelSig E) (cs : List (Index E))
    (ih : ∀ c ∈ cs, c.wf = true → (Index.sel s c).wf = true)
    (hw : Index.wfAll cs = true) :
    Index.wfAll (Index.selAll s cs) = true := by
  induction cs with
  | nil => rfl
  | cons c rest ihr =>
    rw [Index.wfAll, Bool.and_eq_true] at hw
    rw [Index.selAll, Index.wfAll, Bool.and_eq_true]
    exact ⟨ih c (List.mem_cons_self c rest) hw.1,
      ihr (fun c' h' => ih c' (List.mem_cons_of_mem c h')) hw.2⟩

/-- `sel` sends well-formed views to well-formed views. -/
theorem Index.wf_sel {E : Type} (s : SelSig E) :
    ∀ C : Index E, C.wf = true → (Index.sel s C).wf = true := by
  intro C
  induction C using Index.inductionOn with
  | h1 l =>
    intro hw
    by_cases h : s.isEmpty = true
    · rw [Index.sel, if_pos h]
      exact hw
    · rw [Index.sel, if_neg h]
      exact wf_mask_selIndices _ _ hw
  | h2 b idxs ihb =>
    intro hw
    by_cases h : s.isEmpty = true
    · rw [Index.sel, if_pos h]
      exact hw
    · rw [Index.sel, if_neg h]
      exact wf_mask_selIndices _ _ hw
  | h3 cs ih =>
    intro hw
    by_cases h : s.isEmpty = true
    · rw [Index.sel, if_pos h]
      exact hw
    · rw [Index.sel, if_neg h]
      rw [Index.wf] at hw ⊢
      exact wfAll_selAll s cs ih hw

/-- Scanning the positions of a list and keeping those whose entry
satisfies the predicate retrieves exactly the filtered list. -/
theorem rangeFilterGet {E : Type} (L : List E) (p : E → Bool) :
    ((List.range L.length).filter
        (fun i => ((L.get? i).map p).getD false)).filterMap (fun i => L.get? i)
      = L.filter p := by
  induction L with
  | nil => rfl
  | cons a t ih =>
    rw [List.length_cons, List.range_succ_eq_map, List.filter_cons]
    have hq0 : (((a :: t).get? 0).map p).getD false = p a := rfl
    rw [hq0]
    have hshift :
        (List.map Nat.succ (List.range t.length)).filter
            (fun i => (((a :: t).get? i).map p).getD false)
          = List.map Nat.succ
              ((List.range t.length).filter
                (fun i => ((t.get? i).map p).getD false)) := by
      rw [List.filter_map]
      rfl
    cases hpa : p a with
    | true =>
      rw [if_pos rfl, List.filterMap_cons, hshift, List.filterMap_map]
      have : ((List.range t.length).filter
            (fun i => ((t.get? i).map p).getD false)).filterMap
              ((fun i => (a :: t).get? i) ∘ Nat.succ)
          = ((List.range t.length).filter
            (fun i => ((t.get? i).map p).getD false)).filterMap
              (fun i => t.get? i) := rfl
      rw [this, ih, List.filter_cons, if_pos hpa]
      rfl
    | false =>
      rw [if_neg (by simp), hshift, List.filterMap_map]
      have : ((List.range t.length).filter
            (fun i => ((t.get? i).map p).getD false)).filterMap
              ((fun i => (a :: t).get? i) ∘ Nat.succ)
          = ((List.range t.length).filter
            (fun i => ((t.get? i).map p).getD false)).filterMap
              (fun i => t.get? i) := rfl
      rw [this, ih, List.filter_cons, if_neg (by simp [hpa])]

/-- The element sequence of the mask that `sel` builds is the filtered
element sequence of the receiver. -/
theorem elems_mask_selIndices {E : Type} (C : Index E) (p : E → Bool)
    (hw : C.wf = true) :
    (Index.mask C (C.selIndices p)).elems = C.elems.filter p := by
  obtain ⟨hlen, hget⟩ := Index.elems_spec C hw
  rw [Index.elems, Index.selIndices, List.filterMap_map]
  simp only [Function.comp_def, hget]
  rw [← hlen]
  exact rangeFilterGet C.elems p

/-- Distributing a non-empty selection over the children of a
`MultiIndex` filters the concatenated element sequence. -/
theorem elemsMulti_selAll {E : Type} (s : SelSig E) (cs : List (Index E))
    (ih : ∀ c ∈ cs, c.wf = true → (Index.sel s c).elems = c.elems.filter s.matchElt)
    (hw : Index.wfAll cs = true) :
    Index.elemsMulti (Index.selAll s cs)
      = (Index.elemsMulti cs).filter s.matchElt := by
  induction cs with
  | nil => rfl
  | cons c rest ihr =>
    rw [Index.wfAll, Bool.and_eq_true] at hw
    rw [Index.selAll, Index.elemsMulti, Index.elemsMulti, List.filter_append,
      ih c (List.mem_cons_self c rest) hw.1,
      ihr (fun c' h' => ih c' (List.mem_cons_of_mem c h')) hw.2]

/-- On a well-formed index, a non-empty `sel` denotes exactly the
filter of the element sequence. -/
theorem Index.elems_sel {E : Type} (s : SelSig E) (hne : s.isEmpty = false) :
    ∀ C : Index E, C.wf = true →
      (Index.sel s C).elems = C.elems.filter s.matchElt := by
  have hni : ¬ s.isEmpty = true := by rw [hne]; exact Bool.false_ne_true
  intro C
  induction C using Index.inductionOn with
  | h1 l =>
    intro hw
    rw [Index.sel, if_neg hni]
    exact elems_mask_selIndices _ _ hw
  | h2 b idxs ihb =>
    intro hw
    rw [Index.sel, if_neg hni]
    exact elems_mask_selIndices _ _ hw
  | h3 cs ih =>
    intro hw
    rw [Index.sel, if_neg hni, Index.elems, Index.elems]
    rw [Index.wf] at hw
    exact elemsMulti_selAll s cs ih hw

/-- A matching entry of a list reappears in the filtered list at the
position given by counting earlier matches, which is in range. -/
theorem filter_get_countP {E : Type} (L : List E) (p : E → Bool) :
    ∀ (i : Nat) (e : E), L.get? i = some e → p e = true →
      (L.filter p).get? ((L.take i).countP p) = some e
      ∧ (L.take i).countP p < (L.filter p).length := by
  induction L with
  | nil => intro i e h; cases i <;> simp at h
  | cons a t ih =>
    intro i e hg hp
    cases i with
    | zero =>
      rw [List.get?_cons_zero, Option.some_inj] at hg
      subst hg
      rw [List.take_zero]
      simp [List.filter_cons, hp]
    | succ i =>
      rw [List.get?_cons_succ] at hg
      obtain ⟨h1, h2⟩ := ih i e hg hp
      rw [List.take_succ_cons, List.countP_cons]
      cases hpa : p a with
      | true =>
        rw [List.filter_cons, if_pos hpa]
        constructor
        · show (a :: List.filter p t).get?
              (List.countP p (List.take i t) + 1) = some e
          rw [List.get?_cons_succ]
          exact h1
        · show List.countP p (List.take i t) + 1 < (a :: List.filter p t).length
          rw [List.length_cons]
          omega
      | false =>
        rw [List.filter_cons, if_neg (by simp [hpa])]
        constructor
        · show (List.filter p t).get?
              (List.countP p (List.take i t) + 0) = some e
          rw [Nat.add_zero]
          exact h1
        · show List.countP p (List.take i t) + 0 < (List.filter p t).length
          omega
    
/-- Counting matches over a longer prefix that passes a matching
entry strictly grows. -/
theorem countP_take_lt {E : Type} (L : List E) (p : E → Bool) (i j : Nat)
    (hij : i < j) (e : E) (hg : L.get? i = some e) (hp : p e = true) :
    (L.take i).countP p < (L.take j).countP p := by
  have hg' : L[i]? = some e := by rw [← List.get?_eq_getElem?]; exact hg
  have h1 : (L.take (i + 1)).countP p = (L.take i).countP p + 1 := by
    rw [List.take_succ, List.countP_append, hg']
    simp [List.countP_cons, hp]
  have h2 : L.take (i + 1) = (L.take j).take (i + 1) := by
    rw [List.take_take]
    congr 1
    omega
  have h3 : (L.take (i + 1)).countP p ≤ (L.take j).countP p := by
    rw [h2]
    exact List.Sublist.countP_le p (List.take_sublist _ _)
  omega

/-- C1: on a well-formed index, a non-empty selection keeps exactly
the matching elements, in the original relative order: the filtered
element sequence is the filter of the receiver's sequence, and two
matching positions `i < j` reappear at positions `i' < j'` of the
result with the same retrieved elements. -/
theorem sel_preserves_order_and_content {E : Type} (C : Index E) (s : SelSig E)
    (hwf : C.wf = true) (hne : s.isEmpty = false)
    (i j : Nat) (hij : i < j) (hj : j < C.length)
    (ei ej : E) (hgi : C.get (i : Int) = some ei) (hgj : C.get (j : Int) = some ej)
    (hpi : s.matchElt ei = true) (hpj : s.matchElt ej = true) :
    (Index.sel s C).elems = C.elems.filter s.matchElt
    ∧ ∃ i' j' : Nat, i' < j' ∧ j' < (Index.sel s C).length
        ∧ (Index.sel s C).get (i' : Int) = some ei
        ∧ (Index.sel s C).get (j' : Int) = some ej := by
  obtain ⟨hlen, hget⟩ := Index.elems_spec C hwf
  have hf := Index.elems_sel s hne C hwf
  refine ⟨hf, ?_⟩
  have hgi' : C.elems.get? i = some ei := by rw [← hget i]; exact hgi
  have hgj' : C.elems.get? j = some ej := by rw [← hget j]; exact hgj
  have hij' := countP_take_lt C.elems s.matchElt i j hij ei hgi' hpi
  obtain ⟨hfi, _⟩ := filter_get_countP C.elems s.matchElt i ei hgi' hpi
  obtain ⟨hfj, hfj2⟩ := filter_get_countP C.elems s.matchElt j ej hgj' hpj
  have hwfsel := Index.wf_sel s C hwf
  obtain ⟨hslen, hsget⟩ := Index.elems_spec _ hwfsel
  refine ⟨(C.elems.take i).countP s.matchElt, (C.elems.take j).countP s.matchElt,
    hij', ?_, ?_, ?_⟩
  · rw [← hslen, hf]
    exact hfj2
  · rw [hsget, hf]
    exact hfi
  · rw [hsget, hf]
    exact hfj

/-- C1 witness: filtering `[1, 2, 3, 4]` for even entries; positions 1
and 3 both match and reappear in order. -/
theorem sel_preserves_order_and_content_witness :
    ((Index.ofList [1, 2, 3, 4] : Index Int).wf = true)
    ∧ ((⟨false, fun e : Int => e % 2 == 0⟩ : SelSig Int).isEmpty = false)
    ∧ (1 < 3 ∧ 3 < (Index.ofList [1, 2, 3, 4] : Index Int).length)
    ∧ ((Index.ofList [1, 2, 3, 4] : Index Int).get ((1 : Nat) : Int) = some 2)
    ∧ ((Index.ofList [1, 2, 3, 4] : Index Int).get ((3 : Nat) : Int) = some 4)
    ∧ ((2 : Int) % 2 == 0) = true ∧ ((4 : Int) % 2 == 0) = true
    ∧ ((Index.sel ⟨false, fun e : Int => e % 2 == 0⟩ (Index.ofList [1, 2, 3, 4])).elems
          = (Index.ofList [1, 2, 3, 4] : Index Int).elems.filter (fun e : Int => e % 2 == 0)
      ∧ ∃ i' j' : Nat, i' < j'
          ∧ j' < (Index.sel ⟨false, fun e : Int => e % 2 == 0⟩ (Index.ofList [1, 2, 3, 4])).length
          ∧ (Index.sel ⟨false, fun e : Int => e % 2 == 0⟩ (Index.ofList [1, 2, 3, 4])).get ((i' : Nat) : Int) = some 2
          ∧ (Index.sel ⟨false, fun e : Int => e % 2 == 0⟩ (Index.ofList [1, 2, 3, 4])).get ((j' : Nat) : Int) = some 4) :=
  ⟨rfl, rfl, ⟨by decide, by decide⟩, by decide, by decide, by decide, by decide,
   sel_preserves_order_and_content (Index.ofList [1, 2, 3, 4])
     ⟨false, fun e : Int => e % 2 == 0⟩ rfl rfl 1 3 (by decide) (by decide)
     2 4 (by decide) (by decide) (by decide) (by decide)⟩

/-- The totalised extension of a comparator that is transitive on the
in-range positions is transitive everywhere. -/
theorem leExt_trans (n : Nat) (le : Nat → Nat → Bool)
    (h : ∀ a b c, a < n → b < n → c < n →
      le a b = true → le b c = true → le a c = true) :
    ∀ a b c, leExt n le a b = true → leExt n le b c = true →
      leExt n le a c = true := by
  intro a b c hab hbc
  by_cases ha : a < n <;> by_cases hb : b < n <;> by_cases hc : c < n <;>
    simp [leExt, ha, hb, hc] at hab hbc ⊢
  exact h a b c ha hb hc hab hbc

/-- The totalised extension of a comparator that is total on the
in-range positions is total everywhere. -/
theorem leExt_total (n : Nat) (le : Nat → Nat → Bool)
    (h : ∀ a b, a < n → b < n → le a b = true ∨ le b a = true) :
    ∀ a b, (leExt n le a b || leExt n le b a) = true := by
  intro a b
  by_cases ha : a < n <;> by_cases hb : b < n <;> simp [leExt, ha, hb]
  exact h a b ha hb

/-- C2: on a well-formed index, a non-empty `order_by` whose
comparator is a total preorder on the elements is a stable sort: the
result is a mask over the receiver of the same length, its position
list is a permutation of `0 .. len-1`, consecutive positions are
sorted by `compare_elements`, and two positions whose elements tie
keep their original relative order. -/
theorem order_by_stable_sort {E : Type} (C : Index E) (o : OrdSig E)
    (hwf : C.wf = true) (hne : o.isEmpty = false)
    (htr : ∀ a b c, a ∈ C.elems → b ∈ C.elems → c ∈ C.elems →
        o.cmp a b ≤ 0 → o.cmp b c ≤ 0 → o.cmp a c ≤ 0)
    (hto : ∀ a b, a ∈ C.elems → b ∈ C.elems → o.cmp a b ≤ 0 ∨ o.cmp b a ≤ 0) :
    Index.order_by o C
        = Index.mask C ((C.sortPerm o.cmp).map (fun i : Nat => (i : Int)))
    ∧ (Index.order_by o C).length = C.length
    ∧ (C.sortPerm o.cmp).Perm (List.range C.length)
    ∧ (C.sortPerm o.cmp).Pairwise (fun i j => C.cmpAt o.cmp i j ≤ 0)
    ∧ (∀ i j : Nat, i < j → j < C.length → C.cmpAt o.cmp i j = 0 →
        [i, j].Sublist (C.sortPerm o.cmp)) := by
  obtain ⟨hlen, hget⟩ := Index.elems_spec C hwf
  have helem : ∀ i : Nat, i < C.length →
      ∃ a, C.get (i : Int) = some a ∧ a ∈ C.elems := by
    intro i hi
    have hi' : i < C.elems.length := by rw [hlen]; exact hi
    refine ⟨C.elems.get ⟨i, hi'⟩, ?_, List.get_mem _ _ _⟩
    rw [hget i, List.get?_eq_get hi']
  have hcmpAt : ∀ (a b : Nat) (ea eb : E), C.get (a : Int) = some ea →
      C.get (b : Int) = some eb → C.cmpAt o.cmp a b = o.cmp ea eb := by
    intro a b ea eb hga hgb
    simp only [Index.cmpAt, hga, hgb]
  have htr' := leExt_trans C.length
    (fun i j => decide (C.cmpAt o.cmp i j ≤ 0)) ?htrin
  case htrin =>
    intro a b c ha hb hc hab hbc
    obtain ⟨ea, hga, hma⟩ := helem a ha
    obtain ⟨eb, hgb, hmb⟩ := helem b hb
    obtain ⟨ec, hgc, hmc⟩ := helem c hc
    rw [decide_eq_true_eq, hcmpAt a b ea eb hga hgb] at hab
    rw [decide_eq_true_eq, hcmpAt b c eb ec hgb hgc] at hbc
    rw [decide_eq_true_eq, hcmpAt a c ea ec hga hgc]
    exact htr ea eb ec hma hmb hmc hab hbc
  have hto' := leExt_total C.length
    (fun i j => decide (C.cmpAt o.cmp i j ≤ 0)) ?htoin
  case htoin =>
    intro a b ha hb
    obtain ⟨ea, hga, hma⟩ := helem a ha
    obtain ⟨eb, hgb, hmb⟩ := helem b hb
    rw [decide_eq_true_eq, decide_eq_true_eq,
      hcmpAt a b ea eb hga hgb, hcmpAt b a eb ea hgb hga]
    exact hto ea eb hma hmb
  have hEq : C.sortPerm o.cmp
      = (List.range C.length).mergeSort
          (leExt C.length (fun i j => decide (C.cmpAt o.cmp i j ≤ 0))) := by
    rw [Index.sortPerm]
    have hmap := List.map_mergeSort
      (r := fun i j => decide (C.cmpAt o.cmp i j ≤ 0))
      (s := leExt C.length (fun i j => decide (C.cmpAt o.cmp i j ≤ 0)))
      (f := id) (l := List.range C.length) ?hagree
    case hagree =>
      intro a ha b hb
      rw [List.mem_range] at ha hb
      simp [leExt, ha, hb]
    simpa using hmap
  have hc1 : Index.order_by o C
      = Index.mask C ((C.sortPerm o.cmp).map (fun i : Nat => (i : Int))) := by
    rw [Index.order_by, if_neg (by rw [hne]; exact Bool.false_ne_true)]
  refine ⟨hc1, ?_, ?_, ?_, ?_⟩
  · rw [hc1, Index.length, List.length_map, Index.sortPerm,
      List.length_mergeSort, List.length_range]
  · rw [hEq]
    exact List.mergeSort_perm _ _
  · have hsorted := List.sorted_mergeSort htr' hto' (List.range C.length)
    rw [← hEq] at hsorted
    refine List.Pairwise.imp_of_mem ?_ hsorted
    intro a b hma hmb hab
    have ha : a < C.length := by
      rw [hEq, List.mem_mergeSort, List.mem_range] at hma
      exact hma
    have hb : b < C.length := by
      rw [hEq, List.mem_mergeSort, List.mem_range] at hmb
      exact hmb
    rw [leExt, if_pos ha, if_pos hb, decide_eq_true_eq] at hab
    exact hab
  · intro i j hij hjn h0
    have hin : i < C.length := lt_trans hij hjn
    have hle' : leExt C.length (fun i j => decide (C.cmpAt o.cmp i j ≤ 0)) i j
        = true := by
      rw [leExt, if_pos hin, if_pos hjn, decide_eq_true_eq, h0]
    have hsub : [i, j].Sublist (List.range C.length) := by
      have s1 : [i].Sublist (List.range j) :=
        List.singleton_sublist.mpr (List.mem_range.mpr hij)
      have s2 : ([i] ++ [j]).Sublist (List.range j ++ [j]) :=
        List.Sublist.append s1 (List.Sublist.refl [j])
      rw [← List.range_succ] at s2
      exact List.Sublist.trans s2 (List.range_sublist.mpr hjn)
    have hps := List.pair_sublist_mergeSort htr' hto' hle' hsub
    rw [← hEq] at hps
    exact hps

/-- C2 witness: sorting `[3, 1, 2, 1]` ascending; the hypotheses hold
for the integer comparator and the conclusion is produced by the
theorem. -/
theorem order_by_stable_sort_witness :
    ((Index.ofList [3, 1, 2, 1] : Index Int).wf = true)
    ∧ ((⟨false, fun a b : Int => if a < b then -1 else if b < a then 1 else 0⟩ :
          OrdSig Int).isEmpty = false)
    ∧ (Index.order_by
          ⟨false, fun a b : Int => if a < b then -1 else if b < a then 1 else 0⟩
          (Index.ofList [3, 1, 2, 1])
        = Index.mask (Index.ofList [3, 1, 2, 1])
            (((Index.ofList [3, 1, 2, 1] : Index Int).sortPerm
              (fun a b : Int => if a < b then -1 else if b < a then 1 else 0)).map
              (fun i : Nat => (i : Int)))
      ∧ (Index.order_by
            ⟨false, fun a b : Int => if a < b then -1 else if b < a then 1 else 0⟩
            (Index.ofList [3, 1, 2, 1])).length
          = (Index.ofList [3, 1, 2, 1] : Index Int).length
      ∧ ((Index.ofList [3, 1, 2, 1] : Index Int).sortPerm
            (fun a b : Int => if a < b then -1 else if b < a then 1 else 0)).Perm
          (List.range (Index.ofList [3, 1, 2, 1] : Index Int).length)
      ∧ ((Index.ofList [3, 1, 2, 1] : Index Int).sortPerm
            (fun a b : Int => if a < b then -1 else if b < a then 1 else 0)).Pairwise
          (fun i j => (Index.ofList [3, 1, 2, 1] : Index Int).cmpAt
            (fun a b : Int => if a < b then -1 else if b < a then 1 else 0) i j ≤ 0)
      ∧ (∀ i j : Nat, i < j → j < (Index.ofList [3, 1, 2, 1] : Index Int).length →
          (Index.ofList [3, 1, 2, 1] : Index Int).cmpAt
            (fun a b : Int => if a < b then -1 else if b < a then 1 else 0) i j = 0 →
          [i, j].Sublist ((Index.ofList [3, 1, 2, 1] : Index Int).sortPerm
            (fun a b : Int => if a < b then -1 else if b < a then 1 else 0)))) :=
  ⟨rfl, rfl,
   order_by_stable_sort (Index.ofList [3, 1, 2, 1])
     ⟨false, fun a b : Int => if a < b then -1 else if b < a then 1 else 0⟩
     rfl rfl
     (by
       intro a b c _ _ _ hab hbc
       simp only at hab hbc ⊢
       split_ifs at hab hbc ⊢ <;> omega)
     (by
       intro a b _ _
       simp only
       rcases le_or_lt a b with h | h
       · left
         split_ifs <;> omega
       · right
         split_ifs <;> omega)⟩
